import Mathlib

/-!
Verification of the mention scanner/splitter and renderer of the
markdown-it-mention plugin (src/src/plugin.ts), as a shallow embedding.

Strings are modelled as lists of Unicode scalar values (Lean Char).
The mention pattern
  at-sign [\p{L}\p{N}._-]+ ( at-sign (?:[\p{L}\p{N}][\p{L}\p{N}_-]*\.)+ [\p{L}\p{N}]\x7b2,\x7d )?
is embedded as a deterministic maximal-munch scanner: the character class
of the first repetition excludes the at-sign, so the engine never
backtracks into it, label segments are deterministic (the dot terminating
a label can never appear inside the label-character run given back by
backtracking), and the only backtracking left in the JavaScript engine is
over the number of domain label segments, which the scanner replays by
preferring more labels and falling back to fewer.  The Unicode categories
\p{L} and \p{N} are kept as parameters (a CharClass); every structural
theorem below holds for an arbitrary CharClass, and concrete inputs use
the ASCII instantiation, on which Char.isAlpha and Char.isDigit coincide
with \p{L} and \p{N}.

Indices are code-point indices; on the ASCII inputs used for concrete
evaluation they coincide with the UTF-16 indices of JavaScript strings.
-/

/-- A JavaScript string, as its list of code points. -/
abbrev Str := List Char

/-- The two Unicode character categories used by the mention pattern,
kept abstract so that theorems hold for any interpretation of
\p{L} and \p{N}. -/
structure CharClass where
  isL : Char → Bool
  isN : Char → Bool

/-- ASCII instantiation of the character classes: on ASCII code points
Char.isAlpha and Char.isDigit agree exactly with \p{L} and \p{N}. -/
def asciiClass : CharClass :=
  { isL := Char.isAlpha, isN := fun c => c.isDigit }

/-- The class [\p{L}\p{N}._-] of the first repetition of the pattern. -/
def isWordChar (cc : CharClass) (c : Char) : Bool :=
  cc.isL c || cc.isN c || c = '.' || c = '_' || c = '-'

/-- The class [\p{L}\p{N}]. -/
def isLetterOrNumber (cc : CharClass) (c : Char) : Bool :=
  cc.isL c || cc.isN c

/-- The class [\p{L}\p{N}_-] of a domain label tail. -/
def isLabelChar (cc : CharClass) (c : Char) : Bool :=
  cc.isL c || cc.isN c || c = '_' || c = '-'

/-- One domain label segment [\p{L}\p{N}][\p{L}\p{N}_-]* followed by a
literal dot.  Returns the consumed characters (dot included) and the
remainder.  Deterministic: the star is maximal and only a dot directly
after the run can satisfy the pattern. -/
def matchLabel (cc : CharClass) : Str → Option (Str × Str)
  | [] => none
  | c :: cs =>
    if isLetterOrNumber cc c then
      match cs.dropWhile (isLabelChar cc) with
      | '.' :: r => some (c :: (cs.takeWhile (isLabelChar cc) ++ ['.']), r)
      | _ => none
    else none

/-- The final domain label [\p{L}\p{N}] repeated at least twice, maximal. -/
def tldAt (cc : CharClass) (s : Str) : Option (Str × Str) :=
  let run := s.takeWhile (isLetterOrNumber cc)
  if 2 ≤ run.length then some (run, s.dropWhile (isLetterOrNumber cc)) else none

/-- Zero or more further label segments followed by the final label,
preferring more segments (greedy plus with backtracking over the
segment count).  The fuel argument bounds recursion depth; callers pass
one more than the length of the input, which is ample since every label
segment consumes at least two characters. -/
def domainRest (cc : CharClass) : Nat → Str → Option (Str × Str)
  | 0, _ => none
  | fuel + 1, cs =>
    match matchLabel cc cs with
    | some (lab, rest) =>
      match domainRest cc fuel rest with
      | some (more, r2) => some (lab ++ more, r2)
      | none => tldAt cc cs
    | none => tldAt cc cs

/-- The optional explicit-domain group:
at-sign (?:[\p{L}\p{N}][\p{L}\p{N}_-]*\.)+ [\p{L}\p{N}]\x7b2,\x7d.
Returns the consumed characters (leading at-sign included). -/
def matchDomain (cc : CharClass) : Str → Option (Str × Str)
  | '@' :: cs =>
    match matchLabel cc cs with
    | some (lab, rest) =>
      match domainRest cc (rest.length + 1) rest with
      | some (more, r2) => some ('@' :: (lab ++ more), r2)
      | none => none
    | none => none
  | _ => none

/-- Attempt the whole mention pattern at the start of the input: matched
text, the optional explicit-domain capture group, and the remainder.
The first repetition is a maximal run of word characters; since the
at-sign is outside that class, the engine never backtracks into it. -/
def matchMentionAt (cc : CharClass) : Str → Option (Str × Option Str × Str)
  | '@' :: cs =>
    let run := cs.takeWhile (isWordChar cc)
    if run.isEmpty then none
    else
      match matchDomain cc (cs.dropWhile (isWordChar cc)) with
      | some (d, r2) => some ('@' :: (run ++ d), some d, r2)
      | none => some ('@' :: run, none, cs.dropWhile (isWordChar cc))
  | _ => none

/-- One match produced by content.matchAll(MENTION_PATTERN): start index,
matched text (match[0]) and the optional explicit-domain group (match[1],
nonempty exactly when an explicit domain was present). -/
structure MatchRes where
  index : Nat
  matched : Str
  domain : Option Str
deriving DecidableEq

/-- Global scan: try the pattern at every position left to right and
continue after each match (non-overlapping, as matchAll with the g flag;
matches are never empty, so no empty-match index bump is needed).  Fuel
is at least the remaining length, which suffices since every step
consumes at least one character. -/
def scanAux (cc : CharClass) : Nat → Str → Nat → List MatchRes
  | 0, _, _ => []
  | _ + 1, [], _ => []
  | fuel + 1, c :: cs, pos =>
    match matchMentionAt cc (c :: cs) with
    | some (m, d, r) => ⟨pos, m, d⟩ :: scanAux cc fuel r (pos + m.length)
    | none => scanAux cc fuel cs (pos + 1)

/-- All matches of MENTION_PATTERN in a string, in order. -/
def scan (cc : CharClass) (s : Str) : List MatchRes :=
  scanAux cc s.length s 0

/-- A markdown-it inline token, restricted to the fields the plugin
reads or writes: type, content, level, attrs and info. -/
structure Token where
  type : String
  content : Str
  level : Int
  attrs : List (Str × Str)
  info : Str
deriving DecidableEq

/-- new state.Token("text", "", 0) with content and level then assigned,
as done for every plain-text token the splitter pushes. -/
def mkText (content : Str) (level : Int) : Token :=
  { type := "text", content := content, level := level, attrs := [], info := [] }

/-- The plugin options: four independently optional resolver functions
(absent field = option not configured = the JavaScript undefined). -/
structure PluginOptions (Env : Type) where
  localDomain : Option (Str → Env → Option Str)
  link : Option (Str → Env → Option Str)
  linkAttributes : Option (Str → Env → List (Str × Str))
  label : Option (Str → Env → Str)

/-- No options configured at all (plugin used with no second argument). -/
def noOptions {Env : Type} : PluginOptions Env :=
  { localDomain := none, link := none, linkAttributes := none, label := none }

/-- Modelled from the spec: toBareHandle of label.ts (imported by
plugin.ts but not part of the sources given), the default label
resolver.  Per the spec it is a structured label wrapping the at-sign
and the local part in independently styleable elements; the domain part
is omitted for the bare form, matching the expected outputs recorded in
src/src/plugin.test.ts. -/
def toBareHandle {Env : Type} (handle : Str) (_env : Env) : Str :=
  "<span class=\"at\">@</span><span class=\"user\">".data
    ++ (handle.drop 1).takeWhile (fun c => c ≠ '@')
    ++ "</span>".data

/-- JavaScript record update r[k] = v: if the key is present its value
is overwritten in place (insertion order kept), otherwise the pair is
appended; Object.entries then reads the list off in insertion order. -/
def recordSet (r : List (Str × Str)) (k v : Str) : List (Str × Str) :=
  if r.any (fun p => decide (p.1 = k)) then
    r.map (fun p => if p.1 = k then (k, v) else p)
  else r ++ [(k, v)]

/-- options?.link?.(handle, state.env): none both when no link resolver
is configured and when the configured resolver returns null. -/
def computeHref {Env : Type} (opts : PluginOptions Env) (env : Env) (handle : Str) : Option Str :=
  match opts.link with
  | none => none
  | some f => f handle env

/-- The handle-completion step at the top of the per-match loop:
a full handle (explicit domain present) is used as matched; a bare
handle is completed through the localDomain resolver, and the match is
skipped (continue) when the resolver is absent or yields null. -/
def resolveHandle {Env : Type} (opts : PluginOptions Env) (env : Env) (m : MatchRes) : Option Str :=
  match m.domain with
  | some _ => some m.matched
  | none =>
    match opts.localDomain with
    | none => none
    | some f =>
      match f m.matched env with
      | none => none
      | some d => some (m.matched ++ '@' :: d)

/-- The mention token built for a converted match: content from the
label resolver (default toBareHandle), attrs from the linkAttributes
resolver (default empty) with href then assigned to the resolved link
target (default the synthetic acct: URI), info the completed handle. -/
def mkMention {Env : Type} (opts : PluginOptions Env) (env : Env) (handle : Str) (level : Int) :
    Token :=
  { type := "mention",
    content :=
      match opts.label with
      | some f => f handle env
      | none => toBareHandle handle env,
    level := level,
    attrs :=
      recordSet
        (match opts.linkAttributes with
         | some f => f handle env
         | none => [])
        ("href".data)
        ((computeHref opts env handle).getD ("acct:".data ++ handle)),
    info := handle }

/-- The text token pushed for the boundary text before a match, when
nonempty (the source pushes only under match.index > pos). -/
def gapTokens (content : Str) (level : Int) (pos idx : Nat) : List Token :=
  if pos < idx then [mkText ((content.drop pos).take (idx - pos)) level] else []

/-- Loop state of splitTokens: current position in the content and the
replacement tokens accumulated so far. -/
structure SplitState where
  pos : Nat
  tokens : List Token

/-- The body of the per-match loop after handle completion: push the
boundary text, then either degrade to literal matched text (configured
link resolver returned null) or push the mention token; either way the
position advances past the match. -/
def emitResolved {Env : Type} (opts : PluginOptions Env) (env : Env) (content : Str) (level : Int)
    (st : SplitState) (m : MatchRes) (handle : Str) : SplitState :=
  let tokens1 := st.tokens ++ gapTokens content level st.pos m.index
  let href := computeHref opts env handle
  if href.isNone && opts.link.isSome then
    { pos := m.index + m.matched.length, tokens := tokens1 ++ [mkText m.matched level] }
  else
    { pos := m.index + m.matched.length, tokens := tokens1 ++ [mkMention opts env handle level] }

/-- One iteration of the per-match loop of splitTokens: complete the
handle or skip the match (continue without emitting and without moving
pos), then emit. -/
def stepMatch {Env : Type} (opts : PluginOptions Env) (env : Env) (content : Str) (level : Int)
    (st : SplitState) (m : MatchRes) : SplitState :=
  match resolveHandle opts env m with
  | none => st
  | some handle => emitResolved opts env content level st m handle

/-- splitTokens of plugin.ts: fold the per-match loop over all matches,
then push the leftover text after the last consumed match when
nonempty. -/
def splitTokens (cc : CharClass) {Env : Type} (opts : PluginOptions Env) (env : Env)
    (tok : Token) : List Token :=
  let content := tok.content
  let level := tok.level
  let st := (scan cc content).foldl (stepMatch opts env content level) ⟨0, []⟩
  st.tokens ++ (if st.pos < content.length then [mkText (content.drop st.pos) level] else [])

/-- The counter update performed for every visited child token:
markdown link_open/link_close move the markdown link depth, html_inline
recognized as an anchor open or close tag moves the raw-anchor depth.
The recognizers isLinkOpen/isLinkClose of html.ts are parameters: every
theorem below holds for arbitrary recognizers. -/
def stepDepths (iLO iLC : Str → Bool) (ld hd : Int) (t : Token) : Int × Int :=
  if t.type = "link_open" then (ld + 1, hd)
  else if t.type = "link_close" then (ld - 1, hd)
  else if t.type = "html_inline" then
    if iLO t.content then (ld, hd + 1)
    else if iLC t.content then (ld, hd - 1)
    else (ld, hd)
  else (ld, hd)

/-- Both depth counters after walking a list of children from the given
start values. -/
def depthsList (iLO iLC : Str → Bool) (ld hd : Int) : List Token → Int × Int
  | [] => (ld, hd)
  | t :: ts =>
    let d := stepDepths iLO iLC ld hd t
    depthsList iLO iLC d.1 d.2 ts

/-- The children.flatMap body of parseMention: update the counters for
the visited token, pass the token through unchanged when either counter
is positive or the token is not text, otherwise submit it to the
splitter. -/
def processChildren (cc : CharClass) (iLO iLC : Str → Bool) {Env : Type}
    (opts : PluginOptions Env) (env : Env) : Int → Int → List Token → List Token
  | _, _, [] => []
  | ld, hd, t :: ts =>
    let d := stepDepths iLO iLC ld hd t
    (if d.1 > 0 ∨ d.2 > 0 ∨ t.type ≠ "text" then [t] else splitTokens cc opts env t)
      ++ processChildren cc iLO iLC opts env d.1 d.2 ts

/-- A block-level token of the core state: only its type and optional
children matter to parseMention. -/
structure BlockToken where
  type : String
  children : Option (List Token)

/-- parseMention of plugin.ts: for every inline block with children,
replace the children by the flatMap result, with both depth counters
reset to zero per block. -/
def parseMention (cc : CharClass) (iLO iLC : Str → Bool) {Env : Type}
    (opts : PluginOptions Env) (env : Env) (blocks : List BlockToken) : List BlockToken :=
  blocks.map fun b =>
    if b.type = "inline" then
      match b.children with
      | none => b
      | some cs => { b with children := some (processChildren cc iLO iLC opts env 0 0 cs) }
    else b

/-- The render-time environment as the renderer sees it: either not a
non-null object (the side-effect step is skipped) or an object with an
optional mentions array. -/
inductive JSVal where
  | nonObject : JSVal
  | obj : Option (List Str) → JSVal
deriving DecidableEq

/-- The default-renderer capabilities the mention renderer receives from
the host (the self argument): renderToken for delegation and
renderAttrs for the opening tag. -/
structure RendererSelf where
  renderToken : List Token → Nat → Str
  renderAttrs : Token → Str

/-- renderMention of plugin.ts: empty output for an out-of-range index,
delegation for non-mention tokens, and for a mention token the append of
token.info to env.mentions (creating the array when absent, skipping the
step when env is not a non-null object) followed by the anchor markup. -/
def renderMention (self : RendererSelf) (tokens : List Token) (idx : Nat) (env : JSVal) :
    Str × JSVal :=
  if h : idx < tokens.length then
    let token := tokens.get ⟨idx, h⟩
    if token.type = "mention" then
      let env2 :=
        match env with
        | JSVal.nonObject => JSVal.nonObject
        | JSVal.obj m => JSVal.obj (some (m.getD [] ++ [token.info]))
      ("<a ".data ++ self.renderAttrs token ++ ">".data ++ token.content ++ "</a>".data, env2)
    else (self.renderToken tokens idx, env)
  else ([], env)

/-- Modelled from the spec: the host render pass (markdown-it renderer
machinery, an external collaborator), which invokes the registered rule
once per token in document order, threading the environment; only the
mention rule is registered, every other token kind delegates to the
default renderer, which does not touch the environment.  Fuel is the
number of tokens still to render. -/
def renderPass (self : RendererSelf) (tokens : List Token) :
    Nat → Nat → JSVal → Str × JSVal
  | 0, _, env => ([], env)
  | fuel + 1, idx, env =>
    if h : idx < tokens.length then
      let p :=
        if (tokens.get ⟨idx, h⟩).type = "mention" then renderMention self tokens idx env
        else (self.renderToken tokens idx, env)
      let rest := renderPass self tokens fuel (idx + 1) p.2
      (p.1 ++ rest.1, rest.2)
    else ([], env)

/-- Render a whole token sequence from its start. -/
def renderInline (self : RendererSelf) (tokens : List Token) (env : JSVal) : Str × JSVal :=
  renderPass self tokens tokens.length 0 env

/-- Modelled from the spec: the host default renderAttrs (markdown-it),
one space-prefixed name="value" chunk per attribute in order; value
escaping is omitted, no value in this development needs it. -/
def mdRenderAttrs (t : Token) : Str :=
  t.attrs.foldr (fun p acc => " ".data ++ p.1 ++ "=\"".data ++ p.2 ++ "\"".data ++ acc) []

/-- A concrete renderer-capability record for end-to-end evaluation. -/
def mdSelf : RendererSelf :=
  { renderToken := fun _ _ => [], renderAttrs := mdRenderAttrs }

/-- Concatenated text content of a token sequence, token-kind boundaries
ignored. -/
def concatContent (ts : List Token) : Str :=
  ts.foldr (fun t acc => t.content ++ acc) []

/-- Whether the per-match loop converts a match into a mention token:
the handle completes and it is not the case that a configured link
resolver declined it. -/
def converts {Env : Type} (opts : PluginOptions Env) (env : Env) (m : MatchRes) : Bool :=
  match resolveHandle opts env m with
  | none => false
  | some h => !((computeHref opts env h).isNone && opts.link.isSome)

/-- The source spans consumed by converted matches, in order. -/
def convTexts {Env : Type} (opts : PluginOptions Env) (env : Env) (ms : List MatchRes) :
    List Str :=
  ms.filterMap fun m => if converts opts env m then some m.matched else none

/-- Substitute, for each mention token in order, the next recorded source
span for its content, and keep every other token's content: the
reconstruction measure for non-destructive splitting. -/
def fill : List Token → List Str → Str
  | [], _ => []
  | t :: ts, ms =>
    if t.type = "mention" then
      match ms with
      | [] => fill ts []
      | s :: ms2 => s ++ fill ts ms2
    else t.content ++ fill ts ms

/-- The well-formedness of a match list against the content, as the
scan produces it: indices are nondecreasing and in bounds, every match
is nonempty and its matched text really occurs at its index. -/
def chain (content : Str) : Nat → List MatchRes → Prop
  | _, [] => True
  | p, m :: ms =>
    p ≤ m.index ∧ m.matched ≠ [] ∧ m.index + m.matched.length ≤ content.length ∧
      (content.drop m.index).take m.matched.length = m.matched ∧
      chain content (m.index + m.matched.length) ms

lemma matchLabel_append {cc : CharClass} {s lab r : Str}
    (h : matchLabel cc s = some (lab, r)) : lab ++ r = s ∧ lab ≠ [] := by
  rw [matchLabel.eq_def] at h
  split at h
  · exact absurd h (by simp)
  · rename_i c cs
    split at h
    · split at h
      · rename_i r' hd
        simp only [Option.some.injEq, Prod.mk.injEq] at h
        obtain ⟨h1, h2⟩ := h
        subst h1; subst h2
        have hsplit := List.takeWhile_append_dropWhile (isLabelChar cc) cs
        rw [hd] at hsplit
        refine ⟨?_, by simp⟩
        simp only [List.cons_append, List.append_assoc, List.singleton_append, List.cons.injEq,
          true_and]
        exact hsplit
      · exact absurd h (by simp)
    · exact absurd h (by simp)

lemma tldAt_append {cc : CharClass} {s run r : Str}
    (h : tldAt cc s = some (run, r)) : run ++ r = s := by
  rw [tldAt.eq_def] at h
  simp only at h
  split at h
  · simp only [Option.some.injEq, Prod.mk.injEq] at h
    obtain ⟨h1, h2⟩ := h
    subst h1; subst h2
    exact List.takeWhile_append_dropWhile (isLetterOrNumber cc) s
  · exact absurd h (by simp)

lemma domainRest_append {cc : CharClass} :
    ∀ {fuel : Nat} {s more r : Str}, domainRest cc fuel s = some (more, r) → more ++ r = s := by
  intro fuel
  induction fuel with
  | zero => intro s more r h; simp [domainRest] at h
  | succ n ih =>
    intro s more r h
    rw [domainRest.eq_def] at h
    simp only at h
    split at h
    · rename_i lab rest hl
      split at h
      · rename_i more' r2 hdr
        simp only [Option.some.injEq, Prod.mk.injEq] at h
        obtain ⟨h1, h2⟩ := h
        subst h1; subst h2
        have hlab := (matchLabel_append hl).1
        have hmore := ih hdr
        rw [List.append_assoc, hmore, hlab]
      · exact tldAt_append h
    · exact tldAt_append h

lemma matchDomain_append {cc : CharClass} {s d r : Str}
    (h : matchDomain cc s = some (d, r)) : d ++ r = s := by
  rw [matchDomain.eq_def] at h
  split at h
  · rename_i cs
    split at h
    · rename_i lab rest hl
      split at h
      · rename_i more r2 hdr
        simp only [Option.some.injEq, Prod.mk.injEq] at h
        obtain ⟨h1, h2⟩ := h
        subst h1; subst h2
        have hlab := (matchLabel_append hl).1
        have hmore := domainRest_append hdr
        simp only [List.cons_append, List.cons.injEq, true_and, List.append_assoc]
        rw [hmore, hlab]
      · exact absurd h (by simp)
    · exact absurd h (by simp)
  · exact absurd h (by simp)

lemma matchMentionAt_append {cc : CharClass} {s m : Str} {d : Option Str} {r : Str}
    (h : matchMentionAt cc s = some (m, d, r)) : m ++ r = s ∧ m ≠ [] := by
  rw [matchMentionAt.eq_def] at h
  split at h
  · rename_i cs
    simp only at h
    split at h
    · exact absurd h (by simp)
    · have hsplit := List.takeWhile_append_dropWhile (isWordChar cc) cs
      split at h
      · rename_i dm r2 hd
        simp only [Option.some.injEq, Prod.mk.injEq] at h
        obtain ⟨h1, _, h3⟩ := h
        subst h1; subst h3
        refine ⟨?_, by simp⟩
        have hdm := matchDomain_append hd
        simp only [List.cons_append, List.cons.injEq, true_and, List.append_assoc]
        rw [hdm, hsplit]
      · simp only [Option.some.injEq, Prod.mk.injEq] at h
        obtain ⟨h1, _, h3⟩ := h
        subst h1; subst h3
        refine ⟨?_, by simp⟩
        simp only [List.cons_append, List.cons.injEq, true_and]
        exact hsplit
  · exact absurd h (by simp)

lemma chain_mono {content : Str} :
    ∀ {ms : List MatchRes} {p q : Nat}, p ≤ q → chain content q ms → chain content p ms := by
  intro ms
  cases ms with
  | nil => intro p q _ _; trivial
  | cons m ms =>
    intro p q hpq hch
    obtain ⟨h1, h2, h3, h4, h5⟩ := hch
    exact ⟨le_trans hpq h1, h2, h3, h4, h5⟩

lemma scanAux_chain {cc : CharClass} {content : Str} :
    ∀ (fuel : Nat) (s : Str) (pos : Nat), content.drop pos = s →
      chain content pos (scanAux cc fuel s pos) := by
  intro fuel
  induction fuel with
  | zero => intro s pos _; rw [scanAux]; trivial
  | succ n ih =>
    intro s pos hs
    match s with
    | [] => rw [scanAux]; trivial
    | c :: cs =>
      rw [scanAux.eq_def]
      simp only
      cases hm : matchMentionAt cc (c :: cs) with
      | none =>
        simp only
        have hdrop : content.drop (pos + 1) = cs := by
          have : content.drop (pos + 1) = (content.drop pos).drop 1 := by
            rw [List.drop_drop]
          rw [this, hs, List.drop_one, List.tail_cons]
        exact chain_mono (Nat.le_succ pos) (ih cs (pos + 1) hdrop)
      | some t =>
        obtain ⟨m, dm, r⟩ := t
        simp only
        obtain ⟨happ, hne⟩ := matchMentionAt_append hm
        have hposle : pos ≤ content.length := by
          by_contra hgt
          push_neg at hgt
          have : content.drop pos = [] := List.drop_of_length_le (le_of_lt hgt)
          rw [hs] at this
          simp at this
        have hlen : (content.drop pos).length = content.length - pos := List.length_drop _ _
        have hslen : (c :: cs).length = m.length + r.length := by
          rw [← happ, List.length_append]
        have hbound : pos + m.length ≤ content.length := by
          rw [hs] at hlen
          omega
        have hextract : (content.drop pos).take m.length = m := by
          rw [hs, ← happ, List.take_left]
        have hdrop2 : content.drop (pos + m.length) = r := by
          have : content.drop (pos + m.length) = (content.drop pos).drop m.length := by
            rw [List.drop_drop]
          rw [this, hs, ← happ, List.drop_left]
        exact ⟨le_refl pos, hne, hbound, hextract, ih r (pos + m.length) hdrop2⟩

lemma scan_chain {cc : CharClass} {content : Str} : chain content 0 (scan cc content) := by
  have := @scanAux_chain cc content content.length content 0 (by simp)
  exact this

lemma take_add_split {α : Type} : ∀ (m n : Nat) (l : List α),
    l.take (m + n) = l.take m ++ (l.drop m).take n := by
  intro m
  induction m with
  | zero => intro n l; simp
  | succ k ih =>
    intro n l
    cases l with
    | nil => simp
    | cons a l =>
      have harith : k + 1 + n = (k + n) + 1 := by omega
      rw [harith]
      simp only [List.take_succ_cons, List.drop_succ_cons, List.cons_append, List.cons.injEq,
        true_and]
      exact ih n l

lemma seg_glue {content M : Str} {p i L q : Nat}
    (hpi : p ≤ i) (hiL : i + L ≤ q)
    (hm : (content.drop i).take L = M) :
    (content.drop p).take (i - p) ++ (M ++ (content.drop (i + L)).take (q - (i + L)))
      = (content.drop p).take (q - p) := by
  subst hm
  have h1 : q - p = (i - p) + (L + (q - (i + L))) := by omega
  rw [h1, take_add_split, take_add_split]
  have h2 : (content.drop p).drop (i - p) = content.drop i := by
    rw [List.drop_drop]
    congr 1
    omega
  have h3 : (content.drop i).drop L = content.drop (i + L) := by
    rw [List.drop_drop]
  rw [h2, h3]

lemma fill_nonmention_cons {t : Token} (h : ¬ t.type = "mention") (ts : List Token)
    (ms : List Str) : fill (t :: ts) ms = t.content ++ fill ts ms := by
  rw [fill.eq_def]
  simp [h]

lemma fill_mention_cons {t : Token} (h : t.type = "mention") (ts : List Token) (s : Str)
    (ms : List Str) : fill (t :: ts) (s :: ms) = s ++ fill ts ms := by
  rw [fill.eq_def]
  simp [h]

lemma convTexts_cons {Env : Type} (opts : PluginOptions Env) (env : Env) (m : MatchRes)
    (ms : List MatchRes) :
    convTexts opts env (m :: ms)
      = (if converts opts env m then [m.matched] else []) ++ convTexts opts env ms := by
  by_cases hcv : converts opts env m = true <;>
    simp [convTexts, List.filterMap_cons, hcv]

lemma gap_ne_nil {content : Str} {p i : Nat} (hpi : p < i) (hle : i ≤ content.length) :
    (content.drop p).take (i - p) ≠ [] := by
  have hlen : ((content.drop p).take (i - p)).length = min (i - p) (content.length - p) := by
    simp [List.length_take, List.length_drop]
  have hpos : 0 < ((content.drop p).take (i - p)).length := by omega
  exact List.ne_nil_of_length_pos hpos

lemma glue4 {A B C F R : Str} (h : A ++ (B ++ C) = R) : A ++ (B ++ (C ++ F)) = R ++ F := by
  rw [← h]
  simp [List.append_assoc]

lemma glue3 {B C F R : Str} (h : B ++ C = R) : B ++ (C ++ F) = R ++ F := by
  rw [← h]
  simp [List.append_assoc]

lemma convTexts_cons_false {Env : Type} {opts : PluginOptions Env} {env : Env} {m : MatchRes}
    (ms : List MatchRes) (hcv : converts opts env m = false) :
    convTexts opts env (m :: ms) = convTexts opts env ms := by
  simp [convTexts, List.filterMap_cons, hcv]

lemma convTexts_cons_true {Env : Type} {opts : PluginOptions Env} {env : Env} {m : MatchRes}
    (ms : List MatchRes) (hcv : converts opts env m = true) :
    convTexts opts env (m :: ms) = m.matched :: convTexts opts env ms := by
  simp [convTexts, List.filterMap_cons, hcv]

lemma splitLoop_spec {Env : Type} (opts : PluginOptions Env) (env : Env) (content : Str)
    (level : Int) :
    ∀ (ms : List MatchRes) (st : SplitState),
      chain content st.pos ms → st.pos ≤ content.length →
      ∃ Δ : List Token,
        (ms.foldl (stepMatch opts env content level) st).tokens = st.tokens ++ Δ ∧
        st.pos ≤ (ms.foldl (stepMatch opts env content level) st).pos ∧
        (ms.foldl (stepMatch opts env content level) st).pos ≤ content.length ∧
        (∀ (extraT : List Token) (extraM : List Str),
          fill (Δ ++ extraT) (convTexts opts env ms ++ extraM)
            = (content.drop st.pos).take
                ((ms.foldl (stepMatch opts env content level) st).pos - st.pos)
              ++ fill extraT extraM) ∧
        (∀ t ∈ Δ, t.level = level ∧ (t.type = "text" → t.content ≠ [])) := by
  intro ms
  induction ms with
  | nil =>
    intro st hch hle
    refine ⟨[], by simp, le_refl _, hle, ?_, by simp⟩
    intro extraT extraM
    simp [convTexts]
  | cons m ms ih =>
    intro st hch hle
    obtain ⟨h1, h2, h3, h4, h5⟩ := hch
    simp only [List.foldl_cons]
    cases hr : resolveHandle opts env m with
    | none =>
      have hstep : stepMatch opts env content level st m = st := by
        simp [stepMatch, hr]
      rw [hstep]
      have hcv : converts opts env m = false := by simp [converts, hr]
      have hch' : chain content st.pos ms := chain_mono (by omega) h5
      obtain ⟨Δ, e1, e2, e3, e4, e5⟩ := ih st hch' hle
      refine ⟨Δ, e1, e2, e3, ?_, e5⟩
      intro eT eM
      rw [convTexts_cons_false ms hcv]
      exact e4 eT eM
    | some handle =>
      have hstep : stepMatch opts env content level st m
          = emitResolved opts env content level st m handle := by
        simp [stepMatch, hr]
      rw [hstep]
      cases hdc : (computeHref opts env handle).isNone && opts.link.isSome with
      | true =>
        have hemit : emitResolved opts env content level st m handle
            = ⟨m.index + m.matched.length,
               (st.tokens ++ gapTokens content level st.pos m.index)
                 ++ [mkText m.matched level]⟩ := by
          simp [emitResolved, hdc]
        rw [hemit]
        have hcv : converts opts env m = false := by simp [converts, hr, hdc]
        set st1 : SplitState :=
          ⟨m.index + m.matched.length,
           (st.tokens ++ gapTokens content level st.pos m.index)
             ++ [mkText m.matched level]⟩ with hst1
        have hpos1 : st1.pos = m.index + m.matched.length := rfl
        have htok1 : st1.tokens
            = (st.tokens ++ gapTokens content level st.pos m.index)
              ++ [mkText m.matched level] := rfl
        obtain ⟨Δ', e1, e2, e3, e4, e5⟩ := ih st1 (by rw [hpos1]; exact h5) (by rw [hpos1]; exact h3)
        rw [hpos1] at e2 e4
        refine ⟨gapTokens content level st.pos m.index ++ [mkText m.matched level] ++ Δ',
          ?_, ?_, e3, ?_, ?_⟩
        · rw [e1, htok1]
          simp [List.append_assoc]
        · omega
        · intro eT eM
          rw [convTexts_cons_false ms hcv]
          by_cases hg : st.pos < m.index
          · have hgap : gapTokens content level st.pos m.index
                = [mkText ((content.drop st.pos).take (m.index - st.pos)) level] := by
              simp [gapTokens, hg]
            rw [hgap]
            simp only [List.append_assoc, List.cons_append, List.singleton_append, List.nil_append]
            rw [fill_nonmention_cons (by simp [mkText]), fill_nonmention_cons (by simp [mkText])]
            simp only [mkText]
            rw [e4 eT eM]
            exact glue4 (seg_glue h1 e2 h4)
          · have hgap : gapTokens content level st.pos m.index = [] := by
              simp [gapTokens, hg]
            have hpieq : st.pos = m.index := by omega
            rw [hgap]
            simp only [List.nil_append, List.cons_append, List.append_assoc, List.singleton_append]
            rw [fill_nonmention_cons (by simp [mkText])]
            simp only [mkText]
            rw [e4 eT eM, hpieq]
            refine glue3 ?_
            have hsg := seg_glue (le_refl m.index) e2 h4
            simpa using hsg
        · intro t ht
          simp only [List.append_assoc, List.mem_append, List.mem_singleton] at ht
          rcases ht with hgap | htk | hΔ
          · by_cases hg : st.pos < m.index
            · simp only [gapTokens, hg, if_pos, List.mem_singleton] at hgap
              subst hgap
              exact ⟨rfl, fun _ => gap_ne_nil hg (by omega)⟩
            · simp [gapTokens, hg] at hgap
          · subst htk
            exact ⟨rfl, fun _ => h2⟩
          · exact e5 t hΔ
      | false =>
        have hemit : emitResolved opts env content level st m handle
            = ⟨m.index + m.matched.length,
               (st.tokens ++ gapTokens content level st.pos m.index)
                 ++ [mkMention opts env handle level]⟩ := by
          simp [emitResolved, hdc]
        rw [hemit]
        have hcv : converts opts env m = true := by simp [converts, hr, hdc]
        set st1 : SplitState :=
          ⟨m.index + m.matched.length,
           (st.tokens ++ gapTokens content level st.pos m.index)
             ++ [mkMention opts env handle level]⟩ with hst1
        have hpos1 : st1.pos = m.index + m.matched.length := rfl
        have htok1 : st1.tokens
            = (st.tokens ++ gapTokens content level st.pos m.index)
              ++ [mkMention opts env handle level] := rfl
        obtain ⟨Δ', e1, e2, e3, e4, e5⟩ := ih st1 (by rw [hpos1]; exact h5) (by rw [hpos1]; exact h3)
        rw [hpos1] at e2 e4
        refine ⟨gapTokens content level st.pos m.index ++ [mkMention opts env handle level] ++ Δ',
          ?_, ?_, e3, ?_, ?_⟩
        · rw [e1, htok1]
          simp [List.append_assoc]
        · omega
        · intro eT eM
          rw [convTexts_cons_true ms hcv]
          by_cases hg : st.pos < m.index
          · have hgap : gapTokens content level st.pos m.index
                = [mkText ((content.drop st.pos).take (m.index - st.pos)) level] := by
              simp [gapTokens, hg]
            rw [hgap]
            simp only [List.append_assoc, List.cons_append, List.singleton_append, List.nil_append]
            rw [fill_nonmention_cons (by simp [mkText])]
            rw [fill_mention_cons (by simp [mkMention])]
            simp only [mkText]
            rw [e4 eT eM]
            exact glue4 (seg_glue h1 e2 h4)
          · have hgap : gapTokens content level st.pos m.index = [] := by
              simp [gapTokens, hg]
            have hpieq : st.pos = m.index := by omega
            rw [hgap]
            simp only [List.nil_append, List.cons_append, List.append_assoc, List.singleton_append]
            rw [fill_mention_cons (by simp [mkMention])]
            rw [e4 eT eM, hpieq]
            refine glue3 ?_
            have hsg := seg_glue (le_refl m.index) e2 h4
            simpa using hsg
        · intro t ht
          simp only [List.append_assoc, List.mem_append, List.mem_singleton] at ht
          rcases ht with hgap | htk | hΔ
          · by_cases hg : st.pos < m.index
            · simp only [gapTokens, hg, if_pos, List.mem_singleton] at hgap
              subst hgap
              exact ⟨rfl, fun _ => gap_ne_nil hg (by omega)⟩
            · simp [gapTokens, hg] at hgap
          · subst htk
            refine ⟨rfl, fun habs => ?_⟩
            rw [show (mkMention opts env handle level).type = "mention" from rfl] at habs
            exact absurd habs (by decide)
          · exact e5 t hΔ

lemma recordSet_of_not_mem {r : List (Str × Str)} {k : Str} (v : Str)
    (h : k ∉ r.map Prod.fst) : recordSet r k v = r ++ [(k, v)] := by
  have hany : r.any (fun p => decide (p.1 = k)) = false := by
    rw [List.any_eq_false]
    intro p hp
    simp only [decide_eq_true_eq]
    intro hk
    exact h (List.mem_map.mpr ⟨p, hp, hk⟩)
  simp [recordSet, hany]

lemma recordSet_mem (r : List (Str × Str)) (k v : Str) : (k, v) ∈ recordSet r k v := by
  rw [recordSet]
  split
  · rename_i hany
    rw [List.any_eq_true] at hany
    obtain ⟨p, hp, hpk⟩ := hany
    simp only [decide_eq_true_eq] at hpk
    rw [List.mem_map]
    exact ⟨p, hp, by simp [hpk]⟩
  · simp

lemma renderPass_mentions (self : RendererSelf) (tokens : List Token) :
    ∀ (fuel idx : Nat) (ms : List Str), tokens.length ≤ idx + fuel →
      (renderPass self tokens fuel idx (JSVal.obj (some ms))).2
        = JSVal.obj (some (ms
            ++ ((tokens.drop idx).filter (fun t => decide (t.type = "mention"))).map
                Token.info)) := by
  intro fuel
  induction fuel with
  | zero =>
    intro idx ms hle
    have hdrop : tokens.drop idx = [] := List.drop_of_length_le (by omega)
    rw [renderPass, hdrop]
    simp
  | succ n ih =>
    intro idx ms hle
    rw [renderPass.eq_def]
    simp only
    split
    · rename_i h
      have hdrop : tokens.drop idx = tokens[idx] :: tokens.drop (idx + 1) :=
        List.drop_eq_getElem_cons h
      rw [hdrop]
      by_cases hty : tokens[idx].type = "mention"
      · simp only [List.get_eq_getElem, hty, if_pos]
        have hrm : renderMention self tokens idx (JSVal.obj (some ms))
            = ("<a ".data ++ self.renderAttrs tokens[idx] ++ ">".data
                ++ tokens[idx].content ++ "</a>".data,
               JSVal.obj (some (ms ++ [tokens[idx].info]))) := by
          rw [renderMention]
          simp [h, hty]
        rw [hrm]
        have hrec := ih (idx + 1) (ms ++ [tokens[idx].info]) (by omega)
        simp only at hrec
        rw [List.filter_cons_of_pos (by simp [hty])]
        simp only [List.map_cons]
        rw [hrec]
        simp [List.append_assoc]
      · simp only [List.get_eq_getElem, hty, if_false]
        have hrec := ih (idx + 1) ms (by omega)
        simp only at hrec
        rw [List.filter_cons_of_neg (by simp [hty])]
        exact hrec
    · rename_i h
      have hdrop : tokens.drop idx = [] := List.drop_of_length_le (by omega)
      rw [hdrop]
      simp

lemma depthsList_cons (iLO iLC : Str → Bool) (ld hd : Int) (t : Token) (ts : List Token) :
    depthsList iLO iLC ld hd (t :: ts)
      = depthsList iLO iLC (stepDepths iLO iLC ld hd t).1 (stepDepths iLO iLC ld hd t).2 ts :=
  rfl

lemma stepDepths_text {iLO iLC : Str → Bool} {ld hd : Int} {t : Token} (h : t.type = "text") :
    stepDepths iLO iLC ld hd t = (ld, hd) := by
  rw [stepDepths]
  rw [h]
  simp

lemma processChildren_mention_depths (cc : CharClass) (iLO iLC : Str → Bool) {Env : Type}
    (opts : PluginOptions Env) (env : Env) :
    ∀ (children : List Token) (ld hd : Int),
      (∀ t ∈ children, t.type ≠ "mention") →
      (∀ l₁ l₂ : List Token, children = l₁ ++ l₂ →
        0 ≤ (depthsList iLO iLC ld hd l₁).1 ∧ 0 ≤ (depthsList iLO iLC ld hd l₁).2) →
      ∀ tok ∈ processChildren cc iLO iLC opts env ld hd children, tok.type = "mention" →
      ∃ (l₁ : List Token) (t : Token) (l₂ : List Token),
        children = l₁ ++ t :: l₂ ∧ t.type = "text" ∧
        depthsList iLO iLC ld hd l₁ = (0, 0) ∧ tok ∈ splitTokens cc opts env t := by
  intro children
  induction children with
  | nil =>
    intro ld hd _ _ tok htok _
    rw [processChildren] at htok
    exact absurd htok (List.not_mem_nil tok)
  | cons t ts ih =>
    intro ld hd hnm hpre tok htok hment
    rw [processChildren.eq_def] at htok
    simp only at htok
    rw [List.mem_append] at htok
    have hd0 : 0 ≤ (stepDepths iLO iLC ld hd t).1 ∧ 0 ≤ (stepDepths iLO iLC ld hd t).2 := by
      have := hpre [t] ts rfl
      rw [depthsList_cons] at this
      exact this
    have hpre' : ∀ l₁ l₂ : List Token, ts = l₁ ++ l₂ →
        0 ≤ (depthsList iLO iLC (stepDepths iLO iLC ld hd t).1
              (stepDepths iLO iLC ld hd t).2 l₁).1 ∧
        0 ≤ (depthsList iLO iLC (stepDepths iLO iLC ld hd t).1
              (stepDepths iLO iLC ld hd t).2 l₁).2 := by
      intro l₁ l₂ heq
      have := hpre (t :: l₁) l₂ (by rw [heq, List.cons_append])
      rw [depthsList_cons] at this
      exact this
    rcases htok with hfirst | hrest
    · split at hfirst
      · rename_i hcond
        rw [List.mem_singleton] at hfirst
        subst hfirst
        exact absurd hment (hnm tok (List.mem_cons_self tok ts))
      · rename_i hcond
        push_neg at hcond
        obtain ⟨hld, hhd, htext⟩ := hcond
        have hstep : stepDepths iLO iLC ld hd t = (ld, hd) := stepDepths_text htext
        rw [hstep] at hld hhd hd0
        have hld0 : ld = 0 := by omega
        have hhd0 : hd = 0 := by omega
        refine ⟨[], t, ts, rfl, htext, ?_, hfirst⟩
        rw [depthsList]
        rw [hld0, hhd0]
    · obtain ⟨l₁, t', l₂, heq, ht', hdep, hmem⟩ :=
        ih (stepDepths iLO iLC ld hd t).1 (stepDepths iLO iLC ld hd t).2
          (fun u hu => hnm u (List.mem_cons_of_mem t hu)) hpre' tok hrest hment
      refine ⟨t :: l₁, t', l₂, by rw [heq, List.cons_append], ht', ?_, hmem⟩
      rw [depthsList_cons]
      exact hdep

/-- C7: for every token index that is out of range of the rendered token
sequence, the mention renderer returns empty output (and the environment
untouched) and does not fail. -/
theorem claim7_out_of_range_empty (self : RendererSelf) (tokens : List Token) (idx : Nat)
    (env : JSVal) (h : tokens.length ≤ idx) :
    renderMention self tokens idx env = ([], env) := by
  rw [renderMention]
  rw [dif_neg (by omega)]

theorem claim7_witness :
    renderMention mdSelf [] 0 JSVal.nonObject = ([], JSVal.nonObject) :=
  claim7_out_of_range_empty mdSelf [] 0 JSVal.nonObject (by decide)

/-- C10: the mention pattern has no left-boundary condition: in the text
"user@example.com" the substring "@example.com" starting right after a
word character is matched, its explicit-domain group is empty (the first
repetition swallows the dots, leaving no second at-sign), and the match
is handed to the local-domain resolver as a bare-handle candidate. -/
theorem claim10_no_left_boundary :
    scan asciiClass "user@example.com".data
      = [{ index := 4, matched := "@example.com".data, domain := none }] ∧
    ∀ (Env : Type) (env : Env) (f : Str → Env → Option Str),
      resolveHandle
          { localDomain := some f, link := none, linkAttributes := none, label := none }
          env { index := 4, matched := "@example.com".data, domain := none }
        = (f "@example.com".data env).map (fun d => "@example.com".data ++ '@' :: d) := by
  constructor
  · decide
  · intro Env env f
    rw [resolveHandle]
    cases hf : f "@example.com".data env with
    | none => simp [hf]
    | some d => simp [hf]

/-- C5: end to end with no options configured, the text "@a@b.com"
splits into exactly one mention token with info "@a@b.com" and href
attribute "acct:@a@b.com", and rendering it produces the anchor markup
and leaves the environment's mentions list equal to that one handle. -/
theorem claim5_end_to_end :
    splitTokens asciiClass ((noOptions : PluginOptions JSVal)) (JSVal.obj none) (mkText "@a@b.com".data 0)
      = [{ type := "mention",
           content := toBareHandle "@a@b.com".data (JSVal.obj none),
           level := 0,
           attrs := [("href".data, "acct:@a@b.com".data)],
           info := "@a@b.com".data }] ∧
    renderInline mdSelf
        (splitTokens asciiClass ((noOptions : PluginOptions JSVal)) (JSVal.obj none)
          (mkText "@a@b.com".data 0))
        (JSVal.obj none)
      = ("<a  href=\"acct:@a@b.com\">".data
           ++ toBareHandle "@a@b.com".data (JSVal.obj none) ++ "</a>".data,
         JSVal.obj (some ["@a@b.com".data])) := by
  constructor
  · decide
  · decide

/-- C2 (counterexample): with a label resolver configured (the same
failure occurs with the default label), the splitter replaces the
matched span by the mention token's rendered label, so concatenating the
emitted tokens' text content does not reproduce the original content. -/
theorem claim2_counterexample :
    concatContent
        (splitTokens asciiClass
          { localDomain := none, link := none, linkAttributes := none,
            label := some (fun _ _ => []) }
          () (mkText "@a@b.com".data 0))
      ≠ "@a@b.com".data := by
  decide

/-- C2 (amended): splitting is non-destructive up to converted mentions:
substituting, for each mention token in order, the source span consumed
by its match for the token's content, and keeping every other emitted
token's content, reproduces the original text token's content exactly;
in particular when no match converts, plain concatenation of the emitted
contents reproduces the content. -/
theorem claim2_nondestructive_fill (cc : CharClass) {Env : Type} (opts : PluginOptions Env)
    (env : Env) (tok : Token) :
    fill (splitTokens cc opts env tok) (convTexts opts env (scan cc tok.content))
      = tok.content := by
  obtain ⟨Δ, e1, e2, e3, e4, e5⟩ :=
    splitLoop_spec opts env tok.content tok.level (scan cc tok.content) ⟨0, []⟩
      scan_chain (Nat.zero_le _)
  have e1' : (List.foldl (stepMatch opts env tok.content tok.level) ⟨0, []⟩
      (scan cc tok.content)).tokens = Δ := by simpa using e1
  have e4' : ∀ (extraT : List Token) (extraM : List Str),
      fill (Δ ++ extraT) (convTexts opts env (scan cc tok.content) ++ extraM)
        = tok.content.take
            ((List.foldl (stepMatch opts env tok.content tok.level) ⟨0, []⟩
              (scan cc tok.content)).pos)
          ++ fill extraT extraM := by
    intro eT eM
    have := e4 eT eM
    simpa using this
  have e3' : (List.foldl (stepMatch opts env tok.content tok.level) ⟨0, []⟩
      (scan cc tok.content)).pos ≤ tok.content.length := e3
  simp only [splitTokens]
  rw [e1']
  by_cases hlt : (List.foldl (stepMatch opts env tok.content tok.level) ⟨0, []⟩
      (scan cc tok.content)).pos < tok.content.length
  · rw [if_pos hlt]
    have hfillT := e4'
      [mkText (tok.content.drop
        ((List.foldl (stepMatch opts env tok.content tok.level) ⟨0, []⟩
          (scan cc tok.content)).pos)) tok.level] []
    rw [List.append_nil] at hfillT
    rw [hfillT]
    rw [fill_nonmention_cons (by simp [mkText])]
    simp only [mkText, fill, List.append_nil]
    exact List.take_append_drop _ _
  · rw [if_neg hlt]
    have hfillT := e4' [] []
    simp only [List.append_nil] at hfillT
    rw [List.append_nil, hfillT]
    have hfe : fill ([] : List Token) [] = [] := rfl
    rw [hfe, List.append_nil]
    have hp' : (List.foldl (stepMatch opts env tok.content tok.level) ⟨0, []⟩
        (scan cc tok.content)).pos = tok.content.length := by omega
    rw [hp']
    exact List.take_length tok.content

/-- C9 (counterexample): a text token with empty content contains no
mention match, yet the splitter returns the empty sequence rather than a
single-element sequence carrying the original token's data. -/
theorem claim9_counterexample :
    scan asciiClass ([] : Str) = [] ∧
    splitTokens asciiClass ((noOptions : PluginOptions Unit)) () (mkText [] 0) = [] ∧
    splitTokens asciiClass ((noOptions : PluginOptions Unit)) () (mkText [] 0)
      ≠ [mkText ([] : Str) 0] := by
  refine ⟨by decide, by decide, by decide⟩

/-- C9 (amended): for a text token with nonempty content containing no
mention match the splitter returns the single-element sequence carrying
the original content and nesting level (for empty content it returns the
empty sequence); every emitted token carries the original span's nesting
level, and no emitted text token is empty, so no empty trailing text
token appears when the last match ends at the end of the content. -/
theorem claim9_splitter_boundaries (cc : CharClass) {Env : Type} (opts : PluginOptions Env)
    (env : Env) (tok : Token) :
    (scan cc tok.content = [] → tok.content ≠ [] →
      splitTokens cc opts env tok = [mkText tok.content tok.level]) ∧
    (∀ t ∈ splitTokens cc opts env tok,
      t.level = tok.level ∧ (t.type = "text" → t.content ≠ [])) := by
  constructor
  · intro hscan hne
    rw [splitTokens]
    simp only [hscan, List.foldl_nil]
    have hlen : 0 < tok.content.length := List.length_pos.mpr hne
    rw [if_pos hlen]
    simp
  · intro t ht
    obtain ⟨Δ, e1, e2, e3, e4, e5⟩ :=
      splitLoop_spec opts env tok.content tok.level (scan cc tok.content) ⟨0, []⟩
        scan_chain (Nat.zero_le _)
    have e1' : (List.foldl (stepMatch opts env tok.content tok.level) ⟨0, []⟩
        (scan cc tok.content)).tokens = Δ := by simpa using e1
    simp only [splitTokens] at ht
    rw [e1'] at ht
    rw [List.mem_append] at ht
    rcases ht with hΔ | htr
    · exact e5 t hΔ
    · by_cases hlt : (List.foldl (stepMatch opts env tok.content tok.level) ⟨0, []⟩
          (scan cc tok.content)).pos < tok.content.length
      · rw [if_pos hlt] at htr
        rw [List.mem_singleton] at htr
        subst htr
        refine ⟨rfl, fun _ => ?_⟩
        simp only [mkText]
        apply List.ne_nil_of_length_pos
        rw [List.length_drop]
        omega
      · rw [if_neg hlt] at htr
        exact absurd htr (List.not_mem_nil t)

theorem claim9_witness :
    splitTokens asciiClass ((noOptions : PluginOptions Unit)) () (mkText "hello".data 2)
      = [mkText "hello".data 2] ∧
    (mkText "hello".data 2).level = 2 ∧
    ((mkText "hello".data 2).type = "text" → (mkText "hello".data 2).content ≠ []) := by
  have h := claim9_splitter_boundaries asciiClass ((noOptions : PluginOptions Unit)) ()
    (mkText "hello".data 2)
  refine ⟨h.1 (by decide) (by decide), ?_, ?_⟩
  · exact (h.2 (mkText "hello".data 2) (by decide)).1
  · exact (h.2 (mkText "hello".data 2) (by decide)).2

/-- C8 (counterexample): when the caller's link-attributes resolver
itself returns an href entry, the source's record assignment overwrites
it in place, so the mention token's attributes are not the caller's
entries followed by href last. -/
theorem claim8_counterexample :
    ((splitTokens asciiClass
        { localDomain := none, link := none,
          linkAttributes := some (fun _ _ =>
            [("href".data, "x".data), ("class".data, "mention".data)]),
          label := none }
        () (mkText "@a@b.com".data 0)).headD (mkText [] 0)).attrs
      = [("href".data, "acct:@a@b.com".data), ("class".data, "mention".data)] ∧
    ((splitTokens asciiClass
        { localDomain := none, link := none,
          linkAttributes := some (fun _ _ =>
            [("href".data, "x".data), ("class".data, "mention".data)]),
          label := none }
        () (mkText "@a@b.com".data 0)).headD (mkText [] 0)).attrs
      ≠ [("href".data, "x".data), ("class".data, "mention".data)]
          ++ [("href".data, "acct:@a@b.com".data)] := by
  refine ⟨by decide, by decide⟩

/-- C8 (amended): for every converted mention the token's attributes are
the record produced by setting href to the resolved link target (the
acct: fallback when no link resolver is configured) on the caller's
attributes; when the caller's attributes contain no href key this is the
caller's entries first and href last; if they do contain href, its value
is overwritten in place at its original position. -/
theorem claim8_attrs_order {Env : Type} (opts : PluginOptions Env) (env : Env) (handle : Str)
    (level : Int) (f : Str → Env → List (Str × Str)) (A : List (Str × Str))
    (h1 : opts.linkAttributes = some f) (h2 : f handle env = A)
    (h3 : "href".data ∉ A.map Prod.fst) :
    (mkMention opts env handle level).attrs
      = A ++ [("href".data, (computeHref opts env handle).getD ("acct:".data ++ handle))] := by
  have hA : (mkMention opts env handle level).attrs
      = recordSet A "href".data ((computeHref opts env handle).getD ("acct:".data ++ handle)) := by
    simp [mkMention, h1, h2]
  rw [hA, recordSet_of_not_mem _ h3]

theorem claim8_witness :
    (mkMention
        { localDomain := none, link := none,
          linkAttributes := some (fun _ _ => [("class".data, "m".data)]), label := none }
        () "@a@b.com".data 0).attrs
      = [("class".data, "m".data)] ++ [("href".data, "acct:".data ++ "@a@b.com".data)] :=
  claim8_attrs_order
    { localDomain := none, link := none,
      linkAttributes := some (fun _ _ => [("class".data, "m".data)]), label := none }
    () "@a@b.com".data 0 (fun _ _ => [("class".data, "m".data)])
    [("class".data, "m".data)] rfl rfl (by decide)

/-- C3: for a match whose handle completes, a configured link resolver
that returns no value makes the match degrade to a plain text token
whose content is the literal original matched text, with no mention
token (so nothing is ever appended to the mentions list for it); with no
link resolver configured the mention token is produced with its href
attribute the synthetic acct: URI of the completed handle. -/
theorem claim3_link_decline_vs_default :
    (∀ (Env : Type) (opts : PluginOptions Env) (env : Env) (content : Str) (level : Int)
        (st : SplitState) (m : MatchRes) (h : Str) (f : Str → Env → Option Str),
      resolveHandle opts env m = some h → opts.link = some f → f h env = none →
        stepMatch opts env content level st m
          = { pos := m.index + m.matched.length,
              tokens := (st.tokens ++ gapTokens content level st.pos m.index)
                ++ [mkText m.matched level] } ∧
        ∀ t ∈ gapTokens content level st.pos m.index ++ [mkText m.matched level],
          t.type = "text") ∧
    (∀ (Env : Type) (opts : PluginOptions Env) (env : Env) (content : Str) (level : Int)
        (st : SplitState) (m : MatchRes) (h : Str),
      resolveHandle opts env m = some h → opts.link = none →
        stepMatch opts env content level st m
          = { pos := m.index + m.matched.length,
              tokens := (st.tokens ++ gapTokens content level st.pos m.index)
                ++ [mkMention opts env h level] } ∧
        (mkMention opts env h level).info = h ∧
        ("href".data, "acct:".data ++ h) ∈ (mkMention opts env h level).attrs) := by
  constructor
  · intro Env opts env content level st m h f hr hlink hf
    have hcH : computeHref opts env h = none := by
      rw [computeHref, hlink]
      exact hf
    have hstep : stepMatch opts env content level st m
        = emitResolved opts env content level st m h := by
      simp [stepMatch, hr]
    refine ⟨?_, ?_⟩
    · rw [hstep, emitResolved]
      simp [hcH, hlink]
    · intro t ht
      rw [List.mem_append] at ht
      rcases ht with hgap | htk
      · rw [gapTokens] at hgap
        split at hgap
        · rw [List.mem_singleton] at hgap
          subst hgap
          rfl
        · exact absurd hgap (List.not_mem_nil t)
      · rw [List.mem_singleton] at htk
        subst htk
        rfl
  · intro Env opts env content level st m h hr hlink
    have hcH : computeHref opts env h = none := by
      rw [computeHref, hlink]
    have hstep : stepMatch opts env content level st m
        = emitResolved opts env content level st m h := by
      simp [stepMatch, hr]
    refine ⟨?_, rfl, ?_⟩
    · rw [hstep, emitResolved]
      simp [hcH, hlink]
    · have hA : (mkMention opts env h level).attrs
          = recordSet
              (match opts.linkAttributes with
               | some f => f h env
               | none => [])
              "href".data ("acct:".data ++ h) := by
        simp [mkMention, hcH]
      rw [hA]
      exact recordSet_mem _ _ _

theorem claim3_witness :
    (stepMatch
        { localDomain := none, link := some (fun _ _ => none), linkAttributes := none,
          label := none }
        () "@a@b.com".data 0 ⟨0, []⟩ ⟨0, "@a@b.com".data, some "@b.com".data⟩
      = { pos := 0 + "@a@b.com".data.length,
          tokens := (([] : List Token) ++ gapTokens "@a@b.com".data 0 0 0)
            ++ [mkText "@a@b.com".data 0] } ∧
      ∀ t ∈ gapTokens "@a@b.com".data 0 0 0 ++ [mkText "@a@b.com".data 0],
        t.type = "text") ∧
    (stepMatch ((noOptions : PluginOptions Unit)) () "@a@b.com".data 0 ⟨0, []⟩
        ⟨0, "@a@b.com".data, some "@b.com".data⟩
      = { pos := 0 + "@a@b.com".data.length,
          tokens := (([] : List Token) ++ gapTokens "@a@b.com".data 0 0 0)
            ++ [mkMention ((noOptions : PluginOptions Unit)) () "@a@b.com".data 0] } ∧
      (mkMention ((noOptions : PluginOptions Unit)) () "@a@b.com".data 0).info = "@a@b.com".data ∧
      ("href".data, "acct:".data ++ "@a@b.com".data)
        ∈ (mkMention ((noOptions : PluginOptions Unit)) () "@a@b.com".data 0).attrs) := by
  constructor
  · exact claim3_link_decline_vs_default.1 Unit
      { localDomain := none, link := some (fun _ _ => none), linkAttributes := none,
        label := none }
      () "@a@b.com".data 0 ⟨0, []⟩ ⟨0, "@a@b.com".data, some "@b.com".data⟩
      "@a@b.com".data (fun _ _ => none) (by decide) rfl rfl
  · exact claim3_link_decline_vs_default.2 Unit ((noOptions : PluginOptions Unit))
      () "@a@b.com".data 0 ⟨0, []⟩ ⟨0, "@a@b.com".data, some "@b.com".data⟩
      "@a@b.com".data (by decide) rfl

/-- C4: for a bare-handle match (no explicit-domain group): with no
local-domain resolver configured, or a resolver yielding no value, the
loop continues without emitting anything and without moving the
position, so the match stays ordinary text and no mention is produced;
with a resolver yielding a domain, processing continues with the
completed handle bareHandle at-sign resolvedDomain. -/
theorem claim4_bare_handle_resolution :
    (∀ (Env : Type) (opts : PluginOptions Env) (env : Env) (content : Str) (level : Int)
        (st : SplitState) (m : MatchRes),
      m.domain = none → opts.localDomain = none →
        stepMatch opts env content level st m = st) ∧
    (∀ (Env : Type) (opts : PluginOptions Env) (env : Env) (content : Str) (level : Int)
        (st : SplitState) (m : MatchRes) (f : Str → Env → Option Str),
      m.domain = none → opts.localDomain = some f → f m.matched env = none →
        stepMatch opts env content level st m = st) ∧
    (∀ (Env : Type) (opts : PluginOptions Env) (env : Env) (content : Str) (level : Int)
        (st : SplitState) (m : MatchRes) (f : Str → Env → Option Str) (d : Str),
      m.domain = none → opts.localDomain = some f → f m.matched env = some d →
        stepMatch opts env content level st m
          = emitResolved opts env content level st m (m.matched ++ '@' :: d)) := by
  refine ⟨?_, ?_, ?_⟩
  · intro Env opts env content level st m hdom hld
    have hr : resolveHandle opts env m = none := by
      rw [resolveHandle, hdom, hld]
    simp [stepMatch, hr]
  · intro Env opts env content level st m f hdom hld hf
    have hr : resolveHandle opts env m = none := by
      simp [resolveHandle, hdom, hld, hf]
    simp [stepMatch, hr]
  · intro Env opts env content level st m f d hdom hld hf
    have hr : resolveHandle opts env m = some (m.matched ++ '@' :: d) := by
      simp [resolveHandle, hdom, hld, hf]
    simp [stepMatch, hr]

theorem claim4_witness :
    (stepMatch ((noOptions : PluginOptions Unit)) () "@foo".data 0 ⟨0, []⟩
        ⟨0, "@foo".data, none⟩ = ⟨0, []⟩) ∧
    (stepMatch
        { localDomain := some (fun _ _ => none), link := none, linkAttributes := none,
          label := none }
        () "@foo".data 0 ⟨0, []⟩ ⟨0, "@foo".data, none⟩ = ⟨0, []⟩) ∧
    (stepMatch
        { localDomain := some (fun _ _ => some "x.com".data), link := none,
          linkAttributes := none, label := none }
        () "@foo".data 0 ⟨0, []⟩ ⟨0, "@foo".data, none⟩
      = emitResolved
          { localDomain := some (fun _ _ => some "x.com".data), link := none,
            linkAttributes := none, label := none }
          () "@foo".data 0 ⟨0, []⟩ ⟨0, "@foo".data, none⟩ ("@foo".data ++ '@' :: "x.com".data)) := by
  refine ⟨?_, ?_, ?_⟩
  · exact claim4_bare_handle_resolution.1 Unit ((noOptions : PluginOptions Unit)) () "@foo".data 0
      ⟨0, []⟩ ⟨0, "@foo".data, none⟩ rfl rfl
  · exact claim4_bare_handle_resolution.2.1 Unit
      { localDomain := some (fun _ _ => none), link := none, linkAttributes := none,
        label := none }
      () "@foo".data 0 ⟨0, []⟩ ⟨0, "@foo".data, none⟩ (fun _ _ => none) rfl rfl rfl
  · exact claim4_bare_handle_resolution.2.2 Unit
      { localDomain := some (fun _ _ => some "x.com".data), link := none,
        linkAttributes := none, label := none }
      () "@foo".data 0 ⟨0, []⟩ ⟨0, "@foo".data, none⟩ (fun _ _ => some "x.com".data)
      "x.com".data rfl rfl rfl

/-- C6: the mention renderer, on a mention token at a valid index,
appends the token's info (the completed handle) exactly once to the
environment's mentions list, creating the list when absent, and skips
the append silently when the environment is not a non-null object;
rendering a whole token sequence in document order therefore extends the
mentions list by exactly the infos of its mention tokens, in order, with
duplicates preserved. -/
theorem claim6_renderer_mentions :
    (∀ (self : RendererSelf) (tokens : List Token) (idx : Nat) (mopt : Option (List Str))
        (h : idx < tokens.length),
      tokens[idx].type = "mention" →
        renderMention self tokens idx (JSVal.obj mopt)
          = ("<a ".data ++ self.renderAttrs tokens[idx] ++ ">".data
              ++ tokens[idx].content ++ "</a>".data,
             JSVal.obj (some (mopt.getD [] ++ [tokens[idx].info])))) ∧
    (∀ (self : RendererSelf) (tokens : List Token) (idx : Nat) (h : idx < tokens.length),
      tokens[idx].type = "mention" →
        renderMention self tokens idx JSVal.nonObject
          = ("<a ".data ++ self.renderAttrs tokens[idx] ++ ">".data
              ++ tokens[idx].content ++ "</a>".data, JSVal.nonObject)) ∧
    (∀ (self : RendererSelf) (tokens : List Token) (ms : List Str),
      (renderInline self tokens (JSVal.obj (some ms))).2
        = JSVal.obj (some (ms
            ++ (tokens.filter (fun t => decide (t.type = "mention"))).map Token.info))) := by
  refine ⟨?_, ?_, ?_⟩
  · intro self tokens idx mopt h hty
    rw [renderMention]
    simp [h, hty]
  · intro self tokens idx h hty
    rw [renderMention]
    simp [h, hty]
  · intro self tokens ms
    rw [renderInline]
    have := renderPass_mentions self tokens tokens.length 0 ms (by omega)
    rw [this]
    simp

theorem claim6_witness :
    renderMention mdSelf [⟨"mention", "X".data, 0, [], "@h@d.com".data⟩] 0 (JSVal.obj none)
      = ("<a ".data ++ mdRenderAttrs ⟨"mention", "X".data, 0, [], "@h@d.com".data⟩ ++ ">".data
          ++ "X".data ++ "</a>".data,
         JSVal.obj (some ["@h@d.com".data])) ∧
    renderMention mdSelf [⟨"mention", "X".data, 0, [], "@h@d.com".data⟩] 0 JSVal.nonObject
      = ("<a ".data ++ mdRenderAttrs ⟨"mention", "X".data, 0, [], "@h@d.com".data⟩ ++ ">".data
          ++ "X".data ++ "</a>".data, JSVal.nonObject) ∧
    (renderInline mdSelf [⟨"mention", "X".data, 0, [], "@h@d.com".data⟩]
        (JSVal.obj (some []))).2
      = JSVal.obj (some ["@h@d.com".data]) := by
  refine ⟨?_, ?_, ?_⟩
  · exact claim6_renderer_mentions.1 mdSelf [⟨"mention", "X".data, 0, [], "@h@d.com".data⟩]
      0 none (by decide) rfl
  · exact claim6_renderer_mentions.2.1 mdSelf [⟨"mention", "X".data, 0, [], "@h@d.com".data⟩]
      0 (by decide) rfl
  · exact claim6_renderer_mentions.2.2 mdSelf [⟨"mention", "X".data, 0, [], "@h@d.com".data⟩] []

/-- C1: a text token is submitted to mention splitting only when both
the markdown link-depth counter and the raw-anchor-depth counter read
zero at the point the token is visited (counters never go negative on
well-formed children), so every mention token in the processed children
of a block originates from a text token visited at depth (0, 0) — never
from a text span inside an open markdown link or open raw anchor, at any
nesting depth. -/
theorem claim1_eligible_only_at_zero_depth (cc : CharClass) (iLO iLC : Str → Bool)
    {Env : Type} (opts : PluginOptions Env) (env : Env) (children : List Token)
    (hnm : ∀ t ∈ children, t.type ≠ "mention")
    (hpre : ∀ l₁ l₂ : List Token, children = l₁ ++ l₂ →
      0 ≤ (depthsList iLO iLC 0 0 l₁).1 ∧ 0 ≤ (depthsList iLO iLC 0 0 l₁).2) :
    ∀ tok ∈ processChildren cc iLO iLC opts env 0 0 children, tok.type = "mention" →
    ∃ (l₁ : List Token) (t : Token) (l₂ : List Token),
      children = l₁ ++ t :: l₂ ∧ t.type = "text" ∧
      depthsList iLO iLC 0 0 l₁ = (0, 0) ∧ tok ∈ splitTokens cc opts env t :=
  processChildren_mention_depths cc iLO iLC opts env children 0 0 hnm hpre

theorem claim1_witness :
    ∃ (l₁ : List Token) (t : Token) (l₂ : List Token),
      [mkText "@a@b.com".data 0] = l₁ ++ t :: l₂ ∧ t.type = "text" ∧
      depthsList (fun _ => false) (fun _ => false) 0 0 l₁ = (0, 0) ∧
      ({ type := "mention",
         content := toBareHandle "@a@b.com".data (),
         level := 0,
         attrs := [("href".data, "acct:@a@b.com".data)],
         info := "@a@b.com".data } : Token) ∈ splitTokens asciiClass ((noOptions : PluginOptions Unit)) () t := by
  apply claim1_eligible_only_at_zero_depth asciiClass (fun _ => false) (fun _ => false)
    ((noOptions : PluginOptions Unit)) () [mkText "@a@b.com".data 0] (by decide)
  · intro l₁ l₂ heq
    rcases l₁ with _ | ⟨a, l₁⟩
    · decide
    · rcases l₁ with _ | ⟨b, l₁⟩
      · simp only [List.cons_append, List.nil_append] at heq
        injection heq with h1 h2
        subst h1
        decide
      · exfalso
        simp only [List.cons_append] at heq
        injection heq with h1 h2
        exact absurd h2 (by simp)
  · decide
  · decide
